import Mathlib

/-!
Shallow embedding of the `nebularag` retrieval pipeline core:
the character-based chunker (`split_text`), the in-memory vector store
with cosine-similarity search, and the retrieve / rerank / answer
orchestration.  Text is modelled as `List Char`, Python floats as `ℚ`,
and cosine scores as exact pairs `(num, denSq)` denoting `num / √denSq`.
-/

namespace NebulaRag

/-- Error raised by `split_text` for invalid parameters (Python `ValueError`). -/
inductive SplitErr where
  | chunkSizeNotPositive
  | overlapNotLess
deriving DecidableEq, Repr

/-- Whitespace predicate used by Python `str.strip()`. -/
def isSpace (c : Char) : Bool := c.isWhitespace

/-- Python `str.strip()`: drop whitespace from both ends. -/
def trimChars (l : List Char) : List Char :=
  ((l.dropWhile isSpace).reverse.dropWhile isSpace).reverse

/-- The `while start < n` loop of `split_text`: emit the trimmed window
`text[start : min(n, start+chunk_size)]`, drop it when empty, stop when the
window reached the end, otherwise continue from `end - chunk_overlap`. -/
def splitGo (cs ov : Nat) (h : ov < cs) (t : List Char) (start : Nat) :
    List (List Char) :=
  if hs : start < t.length then
    (if trimChars ((t.drop start).take (min t.length (start + cs) - start)) = []
     then []
     else [trimChars ((t.drop start).take (min t.length (start + cs) - start))]) ++
    (if he : min t.length (start + cs) = t.length then []
     else splitGo cs ov h t (min t.length (start + cs) - ov))
  else []
termination_by t.length - start
decreasing_by
  omega

/-- `split_text(text, chunk_size, chunk_overlap)`: validate parameters,
strip the text, return `[]` on empty input, else run the chunking loop. -/
def splitText (t : List Char) (cs ov : Nat) : Except SplitErr (List (List Char)) :=
  if cs = 0 then .error .chunkSizeNotPositive
  else if h : cs ≤ ov then .error .overlapNotLess
  else
    if trimChars t = [] then .ok []
    else .ok (splitGo cs ov (by omega) (trimChars t) 0)

/-- Fuel-indexed version of the `split_text` loop: `none` when the fuel is
exhausted before the loop finishes, `some chunks` otherwise. -/
def splitLoop (cs ov : Nat) (t : List Char) : Nat → Nat → Option (List (List Char))
  | 0, _ => none
  | fuel+1, start =>
    if start < t.length then
      match (if min t.length (start + cs) = t.length then some []
             else splitLoop cs ov t fuel (min t.length (start + cs) - ov)) with
      | none => none
      | some rest =>
        some ((if trimChars ((t.drop start).take (min t.length (start + cs) - start)) = []
               then []
               else [trimChars ((t.drop start).take (min t.length (start + cs) - start))]) ++ rest)
    else some []

theorem mem_dropWhile_of_not {l : List Char} {c : Char}
    (hc : c ∈ l) (hns : isSpace c = false) : c ∈ l.dropWhile isSpace := by
  induction l with
  | nil => cases hc
  | cons a as ih =>
    rw [List.dropWhile_cons]
    by_cases ha : isSpace a = true
    · rw [if_pos ha]
      rcases List.mem_cons.mp hc with rfl | hmem
      · rw [hns] at ha; cases ha
      · exact ih hmem
    · rw [if_neg ha]
      exact hc

theorem mem_trimChars {l : List Char} {c : Char}
    (hc : c ∈ l) (hns : isSpace c = false) : c ∈ trimChars l := by
  unfold trimChars
  rw [List.mem_reverse]
  exact mem_dropWhile_of_not (List.mem_reverse.mpr (mem_dropWhile_of_not hc hns)) hns

theorem splitGo_covers (cs ov : Nat) (h : ov < cs) (t : List Char) :
    ∀ fuel start i, t.length - start < fuel → start ≤ i →
      ∀ hi : i < t.length, isSpace t[i] = false →
      ∃ ch ∈ splitGo cs ov h t start, t[i] ∈ ch := by
  intro fuel
  induction fuel with
  | zero => intro start i hf; omega
  | succ fuel ih =>
    intro start i hf hsi hi hns
    have hs : start < t.length := by omega
    rw [splitGo.eq_def]
    rw [dif_pos hs]
    by_cases hwin : i < min t.length (start + cs)
    · -- the character lies in the current window
      have hmemwin : t[i] ∈
          (t.drop start).take (min t.length (start + cs) - start) := by
        apply List.mem_iff_getElem.mpr
        refine ⟨i - start, by rw [List.length_take, List.length_drop]; omega, ?_⟩
        rw [List.getElem_take, List.getElem_drop]
        congr 1
        omega
      have hmem : t[i] ∈
          trimChars ((t.drop start).take (min t.length (start + cs) - start)) :=
        mem_trimChars hmemwin hns
      refine ⟨trimChars ((t.drop start).take (min t.length (start + cs) - start)), ?_, hmem⟩
      rw [if_neg (List.ne_nil_of_mem hmem)]
      exact List.mem_append_left _ (List.mem_singleton.mpr rfl)
    · -- the character lies beyond the window: recurse
      have he : min t.length (start + cs) ≠ t.length := by
        intro hcontra
        rw [hcontra] at hwin
        omega
      have hmin : min t.length (start + cs) = start + cs := by omega
      obtain ⟨ch, hch, hcmem⟩ :=
        ih (min t.length (start + cs) - ov) i (by omega) (by omega) hi hns
      refine ⟨ch, ?_, hcmem⟩
      rw [dif_neg he]
      exact List.mem_append_right _ hch

/-- C1 (amended form): every non-whitespace character of the trimmed input
appears in at least one returned chunk. -/
theorem splitText_covers_nonspace (t : List Char) (cs ov : Nat)
    (chunks : List (List Char)) (hok : splitText t cs ov = .ok chunks) :
    ∀ c ∈ trimChars t, isSpace c = false → ∃ ch ∈ chunks, c ∈ ch := by
  intro c hc hns
  unfold splitText at hok
  by_cases hcs : cs = 0
  · rw [if_pos hcs] at hok; cases hok
  rw [if_neg hcs] at hok
  by_cases hov : cs ≤ ov
  · rw [dif_pos hov] at hok; cases hok
  rw [dif_neg hov] at hok
  by_cases htrim : trimChars t = []
  · rw [htrim] at hc; cases hc
  rw [if_neg htrim] at hok
  obtain ⟨i, hi, hgi⟩ := List.mem_iff_getElem.mp hc
  obtain ⟨ch, hch, hcmem⟩ :=
    splitGo_covers cs ov (by omega) (trimChars t)
      ((trimChars t).length + 1) 0 i (by omega) (Nat.zero_le _) hi (by rw [hgi]; exact hns)
  rw [hgi] at hcmem
  have hchunks : splitGo cs ov (by omega) (trimChars t) 0 = chunks := Except.ok.inj hok
  rw [← hchunks]
  exact ⟨ch, hch, hcmem⟩

theorem splitLoop_eq_splitGo (cs ov : Nat) (h : ov < cs) (t : List Char) :
    ∀ fuel start, t.length - start < fuel →
      splitLoop cs ov t fuel start = some (splitGo cs ov h t start) := by
  intro fuel
  induction fuel with
  | zero => intro start hf; omega
  | succ fuel ih =>
    intro start hf
    rw [splitLoop, splitGo.eq_def]
    by_cases hs : start < t.length
    · rw [if_pos hs, dif_pos hs]
      by_cases he : min t.length (start + cs) = t.length
      · rw [if_pos he, dif_pos he]
      · rw [if_neg he, dif_neg he, ih (min t.length (start + cs) - ov) (by omega)]
    · rw [if_neg hs, dif_neg hs]

/-- C9: with `chunk_overlap < chunk_size` the `split_text` loop makes progress
of `chunk_size - chunk_overlap > 0` per iteration, hence terminates within
`t.length - start` iterations (the fuel-indexed loop never runs out), and
`split_text` returns a result for every input. -/
theorem splitText_terminates (cs ov : Nat) (h : ov < cs) :
    0 < cs - ov ∧
    (∀ t, ∃ chunks, splitText t cs ov = .ok chunks) ∧
    (∀ t fuel start, t.length - start < fuel →
      splitLoop cs ov t fuel start = some (splitGo cs ov h t start)) := by
  refine ⟨by omega, ?_, splitLoop_eq_splitGo cs ov h⟩
  intro t
  unfold splitText
  rw [if_neg (by omega : ¬ cs = 0), dif_neg (by omega : ¬ cs ≤ ov)]
  by_cases htrim : trimChars t = []
  · exact ⟨[], by rw [if_pos htrim]⟩
  · exact ⟨_, by rw [if_neg htrim]⟩

theorem splitText_terminates_witness :
    (0 : Nat) < 3 - 1 ∧
    splitLoop 3 1 "hello world".toList 12 0 =
      some (splitGo 3 1 (by omega) "hello world".toList 0) :=
  ⟨(splitText_terminates 3 1 (by omega)).1,
   (splitText_terminates 3 1 (by omega)).2.2 "hello world".toList 12 0 (by decide)⟩

theorem splitText_ab_eval : splitText ['a', ' ', 'b'] 2 0 = .ok [['a'], ['b']] := by
  unfold splitText
  rw [if_neg (by decide), dif_neg (by decide), if_neg (by decide)]
  have h := splitLoop_eq_splitGo 2 0 (by omega) (trimChars ['a', ' ', 'b']) 4 0 (by decide)
  have h2 : splitLoop 2 0 (trimChars ['a', ' ', 'b']) 4 0 = some [['a'], ['b']] := by decide
  rw [h] at h2
  rw [Option.some.inj h2]

/-- C1 counterexample: with `text = "a b"`, `chunk_size = 2`,
`chunk_overlap = 0`, the chunks are `["a", "b"]` — the space character of the
trimmed input appears in no returned chunk (per-chunk trimming drops it). -/
theorem splitText_claim_cex :
    splitText ['a', ' ', 'b'] 2 0 = .ok [['a'], ['b']] ∧
    (' ' ∈ trimChars ['a', ' ', 'b']) ∧
    (∀ ch ∈ [['a'], ['b']], ' ' ∉ ch) :=
  ⟨splitText_ab_eval, by decide, by decide⟩

theorem splitText_covers_nonspace_witness :
    ∃ ch ∈ [['a'], ['b']], 'a' ∈ ch :=
  splitText_covers_nonspace ['a', ' ', 'b'] 2 0 [['a'], ['b']] splitText_ab_eval
    'a' (by decide) (by decide)

/-! ## Vector store (`vector_store.py`) -/

/-- Embedding vector: Python `List[float]` modelled exactly over `ℚ`. -/
abbrev Vec := List ℚ

/-- `_dot(a, b) = sum(x * y for x, y in zip(a, b))`. -/
def dot (a b : Vec) : ℚ := (List.zipWith (· * ·) a b).sum

/-- Sum of squares; the source's `_norm(a)` is `Real.sqrt` of this. -/
def normSq (a : Vec) : ℚ := (a.map (fun x => x * x)).sum

/-- Exact representation of a cosine-similarity value: the pair `(num, denSq)`
denotes the real number `num / √denSq` (with `denSq > 0` for every score the
code produces). -/
structure Score where
  num : ℚ
  denSq : ℚ
deriving DecidableEq, Repr

/-- The real value denoted by a `Score`. -/
noncomputable def Score.toReal (s : Score) : ℝ := (s.num : ℝ) / Real.sqrt (s.denSq : ℝ)

/-- Computable sort key: `num * |num| / denSq` is the signed square of the
denoted real value, so it induces exactly the same order (see `key_le_iff`). -/
def Score.key (s : Score) : ℚ := s.num * |s.num| / s.denSq

/-- Errors raised by the vector store (Python `ValueError`s). -/
inductive VSErr where
  | dimensionMismatch
  | kNotPositive
  | lengthMismatch
deriving DecidableEq, Repr

/-- `cosine_similarity(a, b)`: `ValueError` on length mismatch, `0.0` when
either norm is zero, else `dot(a,b) / (norm(a) * norm(b))`
(= `dot / √(normSq a * normSq b)`, held exactly as a `Score`). -/
def cosine_similarity (a b : Vec) : Except VSErr Score :=
  if a.length ≠ b.length then .error .dimensionMismatch
  else if normSq a = 0 ∨ normSq b = 0 then .ok ⟨0, 1⟩
  else .ok ⟨dot a b, normSq a * normSq b⟩

/-- `InMemoryVectorStore`: parallel lists of texts and embeddings. -/
structure Store where
  texts : List (List Char)
  embeddings : List Vec
deriving DecidableEq, Repr

/-- The store constructed by `__init__`. -/
def Store.empty : Store := ⟨[], []⟩

/-- Invariant: the two parallel lists have equal length. -/
def Store.Wf (st : Store) : Prop := st.texts.length = st.embeddings.length

/-- `add(texts, embeddings)`: `ValueError` on length mismatch, no-op for
empty input, else extend both lists. -/
def Store.add (st : Store) (ts : List (List Char)) (es : List Vec) :
    Except VSErr Store :=
  if ts.length ≠ es.length then .error .lengthMismatch
  else if ts = [] then .ok st
  else .ok ⟨st.texts ++ ts, st.embeddings ++ es⟩

/-- `clear()`: empty both lists. -/
def Store.clear (_st : Store) : Store := ⟨[], []⟩

/-- `size()`: `len(self.texts)`. -/
def Store.size (st : Store) : Nat := st.texts.length

/-- The scoring loop of `search`: score each embedding against the query,
skipping entries whose `cosine_similarity` raises (dimension mismatch). -/
def scoredEntries (q : Vec) (embs : List Vec) : List (Nat × Score) :=
  embs.enum.filterMap (fun p =>
    match cosine_similarity q p.2 with
    | .ok s => some (p.1, s)
    | .error _ => none)

/-- Comparator of `scores.sort(key=lambda t: t[1], reverse=True)`:
descending by score. -/
def scoreLe (x y : Nat × Score) : Bool := decide (Score.key y.2 ≤ Score.key x.2)

/-- `search(query_embedding, k)`: `ValueError` for `k <= 0`, `[]` for an
empty store, else the first `k` of the scored entries sorted by descending
similarity. -/
def Store.search (st : Store) (q : Vec) (k : ℤ) :
    Except VSErr (List (Nat × Score)) :=
  if k ≤ 0 then .error .kNotPositive
  else if st.embeddings = [] then .ok []
  else .ok (((scoredEntries q st.embeddings).mergeSort scoreLe).take k.toNat)

theorem normSq_nonneg (a : Vec) : 0 ≤ normSq a := by
  apply List.sum_nonneg
  intro x hx
  obtain ⟨y, _, rfl⟩ := List.mem_map.mp hx
  exact mul_self_nonneg y

theorem cosine_denSq_pos {a b : Vec} {s : Score}
    (h : cosine_similarity a b = .ok s) : 0 < s.denSq := by
  unfold cosine_similarity at h
  by_cases hl : a.length ≠ b.length
  · rw [if_pos hl] at h; cases h
  rw [if_neg hl] at h
  by_cases hz : normSq a = 0 ∨ normSq b = 0
  · rw [if_pos hz] at h
    cases h
    norm_num
  · rw [if_neg hz] at h
    cases h
    push_neg at hz
    exact mul_pos (lt_of_le_of_ne (normSq_nonneg a) (Ne.symm hz.1))
      (lt_of_le_of_ne (normSq_nonneg b) (Ne.symm hz.2))

/-- The signed-square map on `ℝ`, used to compare `num / √denSq` values
without computing square roots. -/
noncomputable def mulAbs (x : ℝ) : ℝ := x * |x|

theorem mulAbs_strictMono : StrictMono mulAbs := by
  intro a b hab
  unfold mulAbs
  rcases le_or_lt 0 a with ha | ha
  · have hb : 0 < b := lt_of_le_of_lt ha hab
    rw [abs_of_nonneg ha, abs_of_pos hb]
    exact mul_self_lt_mul_self ha hab
  · rcases le_or_lt 0 b with hb | hb
    · have h1 : a * |a| < 0 := by
        rw [abs_of_neg ha]
        nlinarith
      have h2 : 0 ≤ b * |b| := by
        rw [abs_of_nonneg hb]
        exact mul_self_nonneg b
      linarith
    · rw [abs_of_neg ha, abs_of_neg hb]
      have hm : (-b) * (-b) < (-a) * (-a) :=
        mul_self_lt_mul_self (by linarith) (by linarith)
      nlinarith

theorem score_mulAbs_toReal {s : Score} (hs : 0 < s.denSq) :
    mulAbs (Score.toReal s) = ((Score.key s : ℚ) : ℝ) := by
  have hm : (0:ℝ) < (s.denSq : ℝ) := by exact_mod_cast hs
  unfold mulAbs Score.toReal Score.key
  rw [abs_div, abs_of_nonneg (Real.sqrt_nonneg _), div_mul_div_comm,
    Real.mul_self_sqrt hm.le]
  push_cast
  ring

theorem key_le_iff {s t : Score} (hs : 0 < s.denSq) (ht : 0 < t.denSq) :
    Score.key s ≤ Score.key t ↔ Score.toReal s ≤ Score.toReal t := by
  constructor
  · intro hk
    apply mulAbs_strictMono.le_iff_le.mp
    rw [score_mulAbs_toReal hs, score_mulAbs_toReal ht]
    exact_mod_cast hk
  · intro hr
    have h2 := mulAbs_strictMono.le_iff_le.mpr hr
    rw [score_mulAbs_toReal hs, score_mulAbs_toReal ht] at h2
    exact_mod_cast h2

theorem mem_scoredEntries {q : Vec} {embs : List Vec} {p : Nat × Score} :
    p ∈ scoredEntries q embs ↔
      ∃ e, embs[p.1]? = some e ∧ cosine_similarity q e = .ok p.2 := by
  unfold scoredEntries
  rw [List.mem_filterMap]
  constructor
  · rintro ⟨⟨i, e⟩, hmem, hf⟩
    rcases hcos : cosine_similarity q e with err | s
    · rw [hcos] at hf; cases hf
    · rw [hcos] at hf
      simp only [Option.some.injEq] at hf
      rw [← hf]
      exact ⟨e, List.mk_mem_enum_iff_getElem?.mp hmem, hcos⟩
  · rintro ⟨e, hget, hcos⟩
    refine ⟨(p.1, e), List.mk_mem_enum_iff_getElem?.mpr hget, ?_⟩
    rw [hcos]

theorem scoreLe_trans (a b c : Nat × Score) :
    scoreLe a b → scoreLe b c → scoreLe a c := by
  simp only [scoreLe, decide_eq_true_eq]
  intro h1 h2
  exact le_trans h2 h1

theorem scoreLe_total (a b : Nat × Score) : scoreLe a b || scoreLe b a := by
  simp only [scoreLe, Bool.or_eq_true, decide_eq_true_eq]
  exact le_total _ _

/-- C2: `search` errors for `k ≤ 0`, returns `[]` on an empty store, and any
successful result has at most `k` entries and is sorted by descending
(real-valued) cosine similarity. -/
theorem search_spec (st : Store) (q : Vec) (k : ℤ) :
    (k ≤ 0 → Store.search st q k = .error .kNotPositive) ∧
    (0 < k → st.embeddings = [] → Store.search st q k = .ok []) ∧
    (∀ r, Store.search st q k = .ok r →
      r.length ≤ k.toNat ∧
      r.Pairwise (fun p p' => Score.toReal p'.2 ≤ Score.toReal p.2)) := by
  refine ⟨?_, ?_, ?_⟩
  · intro hk
    unfold Store.search
    rw [if_pos hk]
  · intro hk hemb
    unfold Store.search
    rw [if_neg (not_le.mpr hk), if_pos hemb]
  · intro r hr
    unfold Store.search at hr
    by_cases hk : k ≤ 0
    · rw [if_pos hk] at hr; cases hr
    rw [if_neg hk] at hr
    by_cases hemb : st.embeddings = []
    · rw [if_pos hemb] at hr
      cases hr
      exact ⟨Nat.zero_le _, List.Pairwise.nil⟩
    · rw [if_neg hemb] at hr
      cases hr
      refine ⟨List.length_take_le _ _, ?_⟩
      have hsorted : ((scoredEntries q st.embeddings).mergeSort scoreLe).Pairwise
          (fun x y => scoreLe x y = true) :=
        List.sorted_mergeSort scoreLe_trans scoreLe_total _
      have hpos : ∀ p ∈ (scoredEntries q st.embeddings).mergeSort scoreLe,
          0 < p.2.denSq := by
        intro p hp
        rw [List.mem_mergeSort] at hp
        obtain ⟨e, _, hcos⟩ := mem_scoredEntries.mp hp
        exact cosine_denSq_pos hcos
      have hsorted2 : ((scoredEntries q st.embeddings).mergeSort scoreLe).Pairwise
          (fun p p' => Score.toReal p'.2 ≤ Score.toReal p.2) := by
        refine List.Pairwise.imp_of_mem ?_ hsorted
        intro a b ha hb hab
        simp only [scoreLe, decide_eq_true_eq] at hab
        exact (key_le_iff (hpos b hb) (hpos a ha)).mp hab
      exact List.Pairwise.sublist (List.take_sublist _ _) hsorted2

/-- C3: the parallel-lengths invariant and the `add`/`clear` contract:
mismatched lengths error, empty input is a no-op, success appends both lists
without touching existing entries, and `clear` resets to the empty store. -/
theorem add_clear_invariant (st : Store) (ts : List (List Char)) (es : List Vec) :
    (ts.length ≠ es.length → Store.add st ts es = .error .lengthMismatch) ∧
    (ts = [] → es = [] → Store.add st ts es = .ok st) ∧
    (∀ st', Store.add st ts es = .ok st' →
      st'.texts = st.texts ++ ts ∧ st'.embeddings = st.embeddings ++ es ∧
      (∀ i, i < st.texts.length → st'.texts[i]? = st.texts[i]?) ∧
      (∀ i, i < st.embeddings.length → st'.embeddings[i]? = st.embeddings[i]?) ∧
      (st.Wf → st'.Wf)) ∧
    (Store.clear st = Store.empty ∧ (Store.clear st).Wf ∧
      Store.size (Store.clear st) = 0) := by
  refine ⟨?_, ?_, ?_, rfl, rfl, rfl⟩
  · intro hne
    unfold Store.add
    rw [if_pos hne]
  · intro hts hes
    unfold Store.add
    rw [if_neg (by rw [hts, hes]; exact fun hc => hc rfl), if_pos hts]
  · intro st' hok
    unfold Store.add at hok
    by_cases hne : ts.length ≠ es.length
    · rw [if_pos hne] at hok; cases hok
    rw [if_neg hne] at hok
    push_neg at hne
    by_cases hts : ts = []
    · rw [if_pos hts] at hok
      cases hok
      have hes : es = [] := by
        rw [hts] at hne
        exact List.eq_nil_of_length_eq_zero hne.symm
      refine ⟨by rw [hts, List.append_nil], by rw [hes, List.append_nil], ?_, ?_, fun h => h⟩
      · intro i _; rfl
      · intro i _; rfl
    · rw [if_neg hts] at hok
      cases hok
      refine ⟨rfl, rfl, ?_, ?_, ?_⟩
      · intro i hi
        exact List.getElem?_append_left hi
      · intro i hi
        exact List.getElem?_append_left hi
      · intro hwf
        unfold Store.Wf at hwf ⊢
        simp only [List.length_append]
        omega

/-- C10: every index returned by `search` is in bounds for the store's
`texts` (given the parallel-lengths invariant), so resolving it never fails. -/
theorem search_indices_bounded (st : Store) (q : Vec) (k : ℤ) (hwf : st.Wf) :
    ∀ r, Store.search st q k = .ok r →
      ∀ p ∈ r, p.1 < Store.size st ∧ ∃ tx, st.texts[p.1]? = some tx := by
  intro r hr p hp
  unfold Store.search at hr
  by_cases hk : k ≤ 0
  · rw [if_pos hk] at hr; cases hr
  rw [if_neg hk] at hr
  by_cases hemb : st.embeddings = []
  · rw [if_pos hemb] at hr; cases hr; cases hp
  · rw [if_neg hemb] at hr
    cases hr
    have hp2 : p ∈ (scoredEntries q st.embeddings).mergeSort scoreLe :=
      List.mem_of_mem_take hp
    rw [List.mem_mergeSort] at hp2
    obtain ⟨e, hget, _⟩ := mem_scoredEntries.mp hp2
    have hlt : p.1 < st.embeddings.length := by
      by_contra hge
      rw [List.getElem?_eq_none (by omega)] at hget
      cases hget
    have hlt2 : p.1 < st.texts.length := by
      unfold Store.Wf at hwf
      omega
    refine ⟨hlt2, ?_⟩
    exact ⟨_, List.getElem?_eq_getElem hlt2⟩

/-- C8: `cosine_similarity` errors exactly on length mismatch (and only with
the dimension error), returns exactly `0` when either norm is zero, otherwise
`dot(a,b)/(√normSq a · √normSq b)`; the search scoring loop scores exactly
the entries whose dimension matches the query's and never propagates a
dimension error. -/
theorem cosine_similarity_spec (a b : Vec) :
    ((∃ e, cosine_similarity a b = .error e) ↔ a.length ≠ b.length) ∧
    (∀ e, cosine_similarity a b = .error e → e = .dimensionMismatch) ∧
    (a.length = b.length → normSq a = 0 ∨ normSq b = 0 →
      cosine_similarity a b = .ok ⟨0, 1⟩ ∧ Score.toReal ⟨0, 1⟩ = 0) ∧
    (a.length = b.length → normSq a ≠ 0 → normSq b ≠ 0 →
      cosine_similarity a b = .ok ⟨dot a b, normSq a * normSq b⟩ ∧
      Score.toReal ⟨dot a b, normSq a * normSq b⟩ =
        (dot a b : ℝ) / (Real.sqrt (normSq a) * Real.sqrt (normSq b))) ∧
    (∀ (embs : List Vec) (i : Nat),
      (∃ s, (i, s) ∈ scoredEntries a embs) ↔
      (∃ e, embs[i]? = some e ∧ e.length = a.length)) ∧
    (∀ (st : Store) (k : ℤ), Store.search st a k ≠ .error .dimensionMismatch) := by
  refine ⟨?_, ?_, ?_, ?_, ?_, ?_⟩
  · constructor
    · rintro ⟨e, he⟩
      unfold cosine_similarity at he
      by_cases hl : a.length ≠ b.length
      · exact hl
      · rw [if_neg hl] at he
        by_cases hz : normSq a = 0 ∨ normSq b = 0
        · rw [if_pos hz] at he; cases he
        · rw [if_neg hz] at he; cases he
    · intro hl
      exact ⟨.dimensionMismatch, by unfold cosine_similarity; rw [if_pos hl]⟩
  · intro e he
    unfold cosine_similarity at he
    by_cases hl : a.length ≠ b.length
    · rw [if_pos hl] at he
      exact (Except.error.inj he).symm
    · rw [if_neg hl] at he
      by_cases hz : normSq a = 0 ∨ normSq b = 0
      · rw [if_pos hz] at he; cases he
      · rw [if_neg hz] at he; cases he
  · intro hl hz
    constructor
    · unfold cosine_similarity
      rw [if_neg (by omega), if_pos hz]
    · unfold Score.toReal
      norm_num
  · intro hl hza hzb
    constructor
    · unfold cosine_similarity
      rw [if_neg (by omega), if_neg (by simp [hza, hzb])]
    unfold Score.toReal
    have h1 : ((normSq a * normSq b : ℚ) : ℝ) = (normSq a : ℝ) * (normSq b : ℝ) := by
      push_cast
      ring
    rw [h1, Real.sqrt_mul (by exact_mod_cast normSq_nonneg a)]
  · intro embs i
    constructor
    · rintro ⟨s, hs⟩
      obtain ⟨e, hget, hcos⟩ := mem_scoredEntries.mp hs
      refine ⟨e, hget, ?_⟩
      by_contra hne
      unfold cosine_similarity at hcos
      rw [if_pos (fun hc => hne hc.symm)] at hcos
      cases hcos
    · rintro ⟨e, hget, hlen⟩
      by_cases hz : normSq a = 0 ∨ normSq e = 0
      · exact ⟨⟨0, 1⟩, mem_scoredEntries.mpr ⟨e, hget,
          by unfold cosine_similarity; rw [if_neg (by omega), if_pos hz]⟩⟩
      · exact ⟨⟨dot a e, normSq a * normSq e⟩, mem_scoredEntries.mpr ⟨e, hget,
          by unfold cosine_similarity; rw [if_neg (by omega), if_neg hz]⟩⟩
  · intro st k
    unfold Store.search
    by_cases hk : k ≤ 0
    · rw [if_pos hk]
      intro hc
      cases Except.error.inj hc
    rw [if_neg hk]
    by_cases hemb : st.embeddings = []
    · rw [if_pos hemb]
      intro hc
      cases hc
    · rw [if_neg hemb]
      intro hc
      cases hc

theorem cosine_one_one : cosine_similarity [(1:ℚ)] [(1:ℚ)] = .ok ⟨1, 1⟩ := by
  unfold cosine_similarity
  rw [if_neg (by norm_num), if_neg (by norm_num [normSq])]
  norm_num [dot, normSq]

theorem scored_one : scoredEntries [(1:ℚ)] [[(1:ℚ)]] = [(0, ⟨1, 1⟩)] := by
  unfold scoredEntries
  rw [show ([[(1:ℚ)]].enum) = [(0, [(1:ℚ)])] from rfl]
  simp [List.filterMap_cons, cosine_one_one]

theorem search_single_eval (k : ℤ) (hk : 0 < k) :
    Store.search ⟨[['x']], [[(1:ℚ)]]⟩ [(1:ℚ)] k = .ok [(0, ⟨1, 1⟩)] := by
  unfold Store.search
  rw [if_neg (not_le.mpr hk), if_neg (by decide), scored_one, List.mergeSort_singleton,
    List.take_of_length_le (by simp; omega)]

theorem search_spec_witness :
    Store.search ⟨[['x']], [[(1:ℚ)]]⟩ [(1:ℚ)] (-1) = .error .kNotPositive ∧
    Store.search Store.empty [(1:ℚ)] 5 = .ok [] ∧
    ([((0:Nat), (⟨1, 1⟩ : Score))].length ≤ (5:ℤ).toNat ∧
      [((0:Nat), (⟨1, 1⟩ : Score))].Pairwise
        (fun p p' => Score.toReal p'.2 ≤ Score.toReal p.2)) :=
  ⟨(search_spec ⟨[['x']], [[(1:ℚ)]]⟩ [(1:ℚ)] (-1)).1 (by decide),
   (search_spec Store.empty [(1:ℚ)] 5).2.1 (by decide) rfl,
   (search_spec ⟨[['x']], [[(1:ℚ)]]⟩ [(1:ℚ)] 5).2.2 [(0, ⟨1, 1⟩)]
     (search_single_eval 5 (by decide))⟩

theorem add_clear_invariant_witness :
    Store.add Store.empty [['a']] [] = .error .lengthMismatch ∧
    Store.add ⟨[['a']], [[(1:ℚ)]]⟩ [] [] = .ok ⟨[['a']], [[(1:ℚ)]]⟩ ∧
    ((⟨[['a'], ['b']], [[(1:ℚ)], [(2:ℚ)]]⟩ : Store).texts = [['a']] ++ [['b']]) :=
  ⟨(add_clear_invariant Store.empty [['a']] []).1 (by decide),
   (add_clear_invariant ⟨[['a']], [[(1:ℚ)]]⟩ [] []).2.1 rfl rfl,
   ((add_clear_invariant ⟨[['a']], [[(1:ℚ)]]⟩ [['b']] [[(2:ℚ)]]).2.2.1
      ⟨[['a'], ['b']], [[(1:ℚ)], [(2:ℚ)]]⟩ rfl).1⟩

theorem search_indices_bounded_witness :
    (0:Nat) < Store.size ⟨[['x']], [[(1:ℚ)]]⟩ ∧
    ∃ tx, (⟨[['x']], [[(1:ℚ)]]⟩ : Store).texts[(0:Nat)]? = some tx :=
  search_indices_bounded ⟨[['x']], [[(1:ℚ)]]⟩ [(1:ℚ)] 5 rfl
    [(0, ⟨1, 1⟩)] (search_single_eval 5 (by decide)) (0, ⟨1, 1⟩) (by simp)

theorem cosine_similarity_spec_witness :
    (∃ e, cosine_similarity [(1:ℚ)] [(1:ℚ), 2] = .error e) ∧
    (cosine_similarity [(0:ℚ)] [(5:ℚ)] = .ok ⟨0, 1⟩ ∧ Score.toReal ⟨0, 1⟩ = 0) ∧
    (cosine_similarity [(1:ℚ)] [(2:ℚ)] =
        .ok ⟨dot [(1:ℚ)] [(2:ℚ)], normSq [(1:ℚ)] * normSq [(2:ℚ)]⟩ ∧
      Score.toReal ⟨dot [(1:ℚ)] [(2:ℚ)], normSq [(1:ℚ)] * normSq [(2:ℚ)]⟩ =
        (dot [(1:ℚ)] [(2:ℚ)] : ℝ) /
          (Real.sqrt (normSq [(1:ℚ)]) * Real.sqrt (normSq [(2:ℚ)]))) ∧
    Store.search ⟨[['x']], [[(1:ℚ)]]⟩ [(1:ℚ)] 3 ≠ .error .dimensionMismatch :=
  ⟨(cosine_similarity_spec [(1:ℚ)] [(1:ℚ), 2]).1.mpr (by decide),
   (cosine_similarity_spec [(0:ℚ)] [(5:ℚ)]).2.2.1 (by decide)
     (Or.inl (by norm_num [normSq])),
   (cosine_similarity_spec [(1:ℚ)] [(2:ℚ)]).2.2.2.1 (by decide)
     (by norm_num [normSq]) (by norm_num [normSq]),
   (cosine_similarity_spec [(1:ℚ)] [(1:ℚ)]).2.2.2.2.2 ⟨[['x']], [[(1:ℚ)]]⟩ 3⟩

/-! ## RAG pipeline (`rag_pipeline.py`), with the external inference
capabilities (`NebulaBlockClient.embed` / `rerank` / `chat`) as oracles.
Call-counting results `(outcome, number of capability calls)` make the
"without calling the capability" claims expressible. -/

/-- Failure of an external capability call (network / malformed response). -/
inductive CErr where
  | serviceError
deriving DecidableEq, Repr

/-- Pipeline-level error: propagated chunker / store / client errors, or a
Python `IndexError` from a bad list access. -/
inductive PErr where
  | split (e : SplitErr)
  | vs (e : VSErr)
  | client (e : CErr)
  | indexError
deriving DecidableEq, Repr

/-- One rerank response item: `index` is `some i` when the item's `"index"`
field is the integer `i`, `none` when the field is missing or not an integer. -/
structure RItem where
  index : Option ℤ
deriving DecidableEq, Repr

/-- The chunk-collection loop of `index_texts`: split every document and
concatenate the chunks in document order. -/
def chunkAll (cs ov : Nat) : List (List Char) → Except SplitErr (List (List Char))
  | [] => .ok []
  | d :: ds =>
    match splitText d cs ov with
    | .error e => .error e
    | .ok c =>
      match chunkAll cs ov ds with
      | .error e => .error e
      | .ok rest => .ok (c ++ rest)

/-- `index_texts(docs)`: chunk all documents; if no chunks, return 0 without
calling `embed`; else one `embed` call on the full batch, then `add`.
The second component counts `embed` calls. -/
def indexTexts (embed : List (List Char) → Except CErr (List Vec)) (cs ov : Nat)
    (st : Store) (docs : List (List Char)) : Except PErr (Store × Nat) × Nat :=
  match chunkAll cs ov docs with
  | .error e => (.error (.split e), 0)
  | .ok chunks =>
    if chunks = [] then (.ok (st, 0), 0)
    else
      match embed chunks with
      | .error e => (.error (.client e), 1)
      | .ok embs =>
        match st.add chunks embs with
        | .error e => (.error (.vs e), 1)
        | .ok st2 => (.ok (st2, chunks.length), 1)

/-- `RAGPipeline.rerank(question, candidate_indices)`: resolve candidates
against store texts, call the rerank capability, and map each result's local
index back to the global index, silently dropping out-of-range ones.  The
second component counts capability calls. -/
def rerankPipe (orc : List (List Char) → Except CErr (List RItem)) (st : Store)
    (cands : List Nat) : Except PErr (List Nat) × Nat :=
  match cands.mapM (fun i => st.texts[i]?) with
  | none => (.error .indexError, 0)
  | some docs =>
    match orc docs with
    | .error e => (.error (.client e), 1)
    | .ok results =>
      (.ok (results.filterMap (fun item =>
        match item.index with
        | some li =>
          if 0 ≤ li ∧ li < (cands.length : ℤ) then cands[li.toNat]? else none
        | none => none)), 1)

/-- The guarded call site in `answer`:
`self.rerank(question, cand_indices) if cand_indices else []`. -/
def rerankStage (orc : List (List Char) → Except CErr (List RItem)) (st : Store)
    (candIdx : List Nat) : Except PErr (List Nat) × Nat :=
  if candIdx = [] then (.ok [], 0) else rerankPipe orc st candIdx

/-- `retrieve(question)`: embed the question (single-element batch, then
`[0]`) and search the store with `top_k`. -/
def retrievePipe (embed : List (List Char) → Except CErr (List Vec)) (topK : ℤ)
    (st : Store) (question : List Char) : Except PErr (List (Nat × Score)) :=
  match embed [question] with
  | .error e => .error (.client e)
  | .ok embs =>
    match embs[0]? with
    | none => .error .indexError
    | some qe =>
      match st.search qe topK with
      | .error e => .error (.vs e)
      | .ok r => .ok r

/-- Python `max_context_docs or self.rerank_k`: `or` yields the second
operand when the first is `None` **or** `0` (falsy). -/
def pyOrNat (mcd : Option Nat) (d : Nat) : Nat :=
  match mcd with
  | none => d
  | some m => if m = 0 then d else m

/-- The separator of `build_context`. -/
def contextSep : List Char := "\n\n---\n\n".toList

/-- The record assembled by `answer` (model identifiers omitted: plain
configuration pass-through). -/
structure AnswerResult where
  answer : List Char
  sources : List (List Char)
  indices : List Nat
deriving DecidableEq, Repr

/-- `answer(question, max_context_docs)`: retrieve, rerank (only when there
are candidates), `reranked or cand_indices[:max_context_docs or rerank_k]`,
build the context, call chat. -/
def answerPipe (embed : List (List Char) → Except CErr (List Vec))
    (orc : List (List Char) → Except CErr (List RItem))
    (chat : List Char → List Char → Except CErr (List Char))
    (topK : ℤ) (rerankK : Nat) (st : Store) (question : List Char)
    (mcd : Option Nat) : Except PErr AnswerResult :=
  match retrievePipe embed topK st question with
  | .error e => .error e
  | .ok candidates =>
    match (rerankStage orc st (candidates.map (fun p => p.1))).1 with
    | .error e => .error e
    | .ok reranked =>
      match ((if reranked = [] then
          (candidates.map (fun p => p.1)).take (pyOrNat mcd rerankK)
        else reranked) : List Nat) with
      | finalIdx =>
        match finalIdx.mapM (fun i => st.texts[i]?) with
        | none => .error .indexError
        | some snippets =>
          match chat ((snippets.intersperse contextSep).flatten) question with
          | .error e => .error (.client e)
          | .ok out => .ok ⟨out, snippets, finalIdx⟩

/-- C4: `index_texts` returns 0 with no embed call when there are no chunks;
otherwise it makes exactly one embed call on the full batch, propagates an
embed failure without mutating the store, and on success appends all chunks
and embeddings and returns the chunk count. -/
theorem indexTexts_spec (embed : List (List Char) → Except CErr (List Vec))
    (cs ov : Nat) (st : Store) (docs chunks : List (List Char))
    (hch : chunkAll cs ov docs = .ok chunks) :
    (chunks = [] → indexTexts embed cs ov st docs = (.ok (st, 0), 0)) ∧
    (chunks ≠ [] →
      (indexTexts embed cs ov st docs).2 = 1 ∧
      (∀ e, embed chunks = .error e →
        (indexTexts embed cs ov st docs).1 = .error (.client e)) ∧
      (∀ embs, embed chunks = .ok embs → embs.length = chunks.length →
        ∃ st2, (indexTexts embed cs ov st docs).1 = .ok (st2, chunks.length) ∧
          st2.texts = st.texts ++ chunks ∧
          st2.embeddings = st.embeddings ++ embs)) := by
  constructor
  · intro hnil
    unfold indexTexts
    rw [hch]
    dsimp only
    rw [if_pos hnil]
  · intro hne
    have hadd : ∀ embs : List Vec, embs.length = chunks.length →
        Store.add st chunks embs = .ok ⟨st.texts ++ chunks, st.embeddings ++ embs⟩ := by
      intro embs hlen
      unfold Store.add
      rw [if_neg (by omega), if_neg hne]
    refine ⟨?_, ?_, ?_⟩
    · unfold indexTexts
      rw [hch]
      dsimp only
      rw [if_neg hne]
      rcases hemb : embed chunks with e | embs
      · rfl
      · dsimp only
        rcases hadd2 : Store.add st chunks embs with e | st2 <;> rfl
    · intro e he
      unfold indexTexts
      rw [hch]
      dsimp only
      rw [if_neg hne, he]
    · intro embs hembs hlen
      refine ⟨⟨st.texts ++ chunks, st.embeddings ++ embs⟩, ?_, rfl, rfl⟩
      unfold indexTexts
      rw [hch]
      dsimp only
      rw [if_neg hne, hembs]
      dsimp only
      rw [hadd embs hlen]

/-- C5 counterexample: `rerank` with an empty candidate list still invokes
the external rerank capability — the call count is 1, and a failing
capability call propagates instead of an early empty return. -/
theorem rerank_empty_cex :
    (rerankPipe (fun _ => .ok []) Store.empty []).2 = 1 ∧
    (rerankPipe (fun _ => .error .serviceError) Store.empty []).1 =
      .error (.client .serviceError) :=
  ⟨rfl, rfl⟩

/-- C5 (amended): `rerank` with an empty candidate list invokes the rerank
capability exactly once (with an empty document list); if that call succeeds
the result is the empty sequence (no local index is in range), and if it
fails the error propagates. -/
theorem rerank_empty_spec (orc : List (List Char) → Except CErr (List RItem))
    (st : Store) :
    (rerankPipe orc st []).2 = 1 ∧
    (∀ rs, orc [] = .ok rs → (rerankPipe orc st []).1 = .ok []) ∧
    (∀ e, orc [] = .error e → (rerankPipe orc st []).1 = .error (.client e)) := by
  have hmap : (List.mapM (fun i => st.texts[i]?) ([] : List Nat)) = some [] := rfl
  refine ⟨?_, ?_, ?_⟩
  · unfold rerankPipe
    rw [hmap]
    dsimp only
    rcases horc : orc [] with e | rs <;> rfl
  · intro rs hrs
    unfold rerankPipe
    rw [hmap]
    dsimp only
    rw [hrs]
    dsimp only
    congr 1
    rw [List.filterMap_eq_nil_iff]
    intro item _
    rcases hidx : item.index with _ | li
    · rfl
    · dsimp only
      rw [if_neg]
      intro hcontra
      have h1 := hcontra.1
      have h2 := hcontra.2
      simp only [List.length_nil, Nat.cast_zero] at h2
      omega
  · intro e he
    unfold rerankPipe
    rw [hmap]
    dsimp only
    rw [he]

theorem splitText_ab2_eval : splitText ['a', 'b'] 2 0 = .ok [['a', 'b']] := by
  unfold splitText
  rw [if_neg (by decide), dif_neg (by decide), if_neg (by decide)]
  have h := splitLoop_eq_splitGo 2 0 (by omega) (trimChars ['a', 'b']) 3 0 (by decide)
  have h2 : splitLoop 2 0 (trimChars ['a', 'b']) 3 0 = some [['a', 'b']] := by decide
  rw [h] at h2
  rw [Option.some.inj h2]

theorem chunkAll_ab2_eval : chunkAll 2 0 [['a', 'b']] = .ok [['a', 'b']] := by
  unfold chunkAll
  rw [splitText_ab2_eval]
  rfl

theorem indexTexts_spec_witness :
    (indexTexts (fun _ => .ok [[(1:ℚ)]]) 2 0 Store.empty [['a', 'b']]).2 = 1 ∧
    (∃ st2, (indexTexts (fun _ => .ok [[(1:ℚ)]]) 2 0 Store.empty [['a', 'b']]).1 =
        .ok (st2, [['a', 'b']].length) ∧
      st2.texts = Store.empty.texts ++ [['a', 'b']] ∧
      st2.embeddings = Store.empty.embeddings ++ [[(1:ℚ)]]) :=
  ⟨((indexTexts_spec (fun _ => .ok [[(1:ℚ)]]) 2 0 Store.empty [['a', 'b']]
      [['a', 'b']] chunkAll_ab2_eval).2 (by decide)).1,
   ((indexTexts_spec (fun _ => .ok [[(1:ℚ)]]) 2 0 Store.empty [['a', 'b']]
      [['a', 'b']] chunkAll_ab2_eval).2 (by decide)).2.2 [[(1:ℚ)]] rfl (by decide)⟩

theorem rerank_empty_spec_witness :
    (rerankPipe (fun _ => .ok [⟨some 0⟩]) Store.empty []).2 = 1 ∧
    (rerankPipe (fun _ => .ok [⟨some 0⟩]) Store.empty []).1 = .ok [] :=
  ⟨(rerank_empty_spec (fun _ => .ok [⟨some 0⟩]) Store.empty).1,
   (rerank_empty_spec (fun _ => .ok [⟨some 0⟩]) Store.empty).2.1 [⟨some 0⟩] rfl⟩

/-- C6: `rerank` maps each result's local index back to the global candidate
index (in result order), dropping items whose `"index"` field is missing,
non-integral, or out of range; every returned index is one of the
candidates, and there are at most as many results as the capability
returned. -/
theorem rerank_maps_indices (orc : List (List Char) → Except CErr (List RItem))
    (st : Store) (cands : List Nat) (docs : List (List Char)) (results : List RItem)
    (hdocs : cands.mapM (fun i => st.texts[i]?) = some docs)
    (horc : orc docs = .ok results) :
    (rerankPipe orc st cands).1 = .ok (results.filterMap (fun item =>
        item.index.bind (fun li => if li < 0 then none else cands[li.toNat]?))) ∧
    (∀ out, (rerankPipe orc st cands).1 = .ok out →
      out.length ≤ results.length ∧ ∀ j ∈ out, j ∈ cands) := by
  have hfun : ∀ item : RItem,
      (match item.index with
        | some li =>
          if 0 ≤ li ∧ li < (cands.length : ℤ) then cands[li.toNat]? else none
        | none => none) =
      item.index.bind (fun li => if li < 0 then none else cands[li.toNat]?) := by
    intro item
    rcases item.index with _ | li
    · rfl
    · dsimp only [Option.bind]
      by_cases hin : 0 ≤ li ∧ li < (cands.length : ℤ)
      · rw [if_pos hin, if_neg (by omega : ¬ li < 0)]
      · rw [if_neg hin]
        by_cases hneg : li < 0
        · rw [if_pos hneg]
        · rw [if_neg hneg]
          have hge : cands.length ≤ li.toNat := by omega
          rw [List.getElem?_eq_none hge]
  have heval : (rerankPipe orc st cands).1 = .ok (results.filterMap (fun item =>
      item.index.bind (fun li => if li < 0 then none else cands[li.toNat]?))) := by
    unfold rerankPipe
    rw [hdocs]
    dsimp only
    rw [horc]
    dsimp only
    congr 1
    exact List.filterMap_congr (fun item _ => hfun item)
  refine ⟨heval, ?_⟩
  intro out hout
  rw [heval] at hout
  have hout2 := Except.ok.inj hout
  subst hout2
  constructor
  · exact List.length_filterMap_le _ _
  · intro j hj
    obtain ⟨item, _, hf⟩ := List.mem_filterMap.mp hj
    rcases hidx : item.index with _ | li
    · rw [hidx] at hf; cases hf
    · rw [hidx] at hf
      dsimp only [Option.bind] at hf
      by_cases hneg : li < 0
      · rw [if_pos hneg] at hf; cases hf
      · rw [if_neg hneg] at hf
        exact List.getElem?_mem hf

theorem rerank_maps_indices_witness :
    (rerankPipe (fun _ => .ok [⟨some 2⟩, ⟨some 0⟩])
      ⟨[['a'], ['b'], ['c'], ['d'], ['e'], ['f'], ['g'], ['h'], ['i'], ['j']], []⟩
      [5, 2, 9]).1 = .ok [9, 5] := by
  have h := (rerank_maps_indices (fun _ => .ok [⟨some 2⟩, ⟨some 0⟩])
    ⟨[['a'], ['b'], ['c'], ['d'], ['e'], ['f'], ['g'], ['h'], ['i'], ['j']], []⟩
    [5, 2, 9] [['f'], ['c'], ['j']] [⟨some 2⟩, ⟨some 0⟩] rfl rfl).1
  rw [h]
  rfl

theorem retrieve_single_eval :
    retrievePipe (fun _ => .ok [[(1:ℚ)]]) 12 ⟨[['x']], [[(1:ℚ)]]⟩ ['q'] =
      .ok [(0, ⟨1, 1⟩)] := by
  unfold retrievePipe
  simp only [List.getElem?_cons_zero]
  rw [search_single_eval 12 (by decide)]

theorem answer_eval_none :
    answerPipe (fun _ => .ok [[(1:ℚ)]]) (fun _ => .ok []) (fun _ _ => .ok ['o'])
      12 1 ⟨[['x']], [[(1:ℚ)]]⟩ ['q'] none = .ok ⟨['o'], [['x']], [0]⟩ := by
  unfold answerPipe
  rw [retrieve_single_eval]
  rfl

theorem answer_eval_zero :
    answerPipe (fun _ => .ok [[(1:ℚ)]]) (fun _ => .ok []) (fun _ _ => .ok ['o'])
      12 1 ⟨[['x']], [[(1:ℚ)]]⟩ ['q'] (some 0) = .ok ⟨['o'], [['x']], [0]⟩ := by
  unfold answerPipe
  rw [retrieve_single_eval]
  rfl

/-- C7 (amended): when reranking yields no results, the final index list is
the first `max_context_docs` — or `rerank_k` when `max_context_docs` is not
provided **or is 0** (Python `or` treats `0` as falsy) — candidates from the
original retrieval order; when reranking yields results, they are the final
index list. -/
theorem answer_fallback (embed : List (List Char) → Except CErr (List Vec))
    (orc : List (List Char) → Except CErr (List RItem))
    (chat : List Char → List Char → Except CErr (List Char))
    (topK : ℤ) (rerankK : Nat) (st : Store) (question : List Char)
    (mcd : Option Nat) :
    ∀ candidates reranked res,
      retrievePipe embed topK st question = .ok candidates →
      (rerankStage orc st (candidates.map (fun p => p.1))).1 = .ok reranked →
      answerPipe embed orc chat topK rerankK st question mcd = .ok res →
      (reranked = [] →
        res.indices = (candidates.map (fun p => p.1)).take (pyOrNat mcd rerankK)) ∧
      (reranked ≠ [] → res.indices = reranked) := by
  intro candidates reranked res hret hrer hans
  unfold answerPipe at hans
  rw [hret] at hans
  dsimp only at hans
  rw [hrer] at hans
  dsimp only at hans
  constructor
  · intro hrr
    rw [if_pos hrr] at hans
    rcases hm : ((candidates.map (fun p => p.1)).take (pyOrNat mcd rerankK)).mapM
        (fun i => st.texts[i]?) with _ | snips
    · rw [hm] at hans; cases hans
    · rw [hm] at hans
      dsimp only at hans
      rcases hc : chat ((snips.intersperse contextSep).flatten) question with e | out
      · rw [hc] at hans; cases hans
      · rw [hc] at hans
        have h2 := Except.ok.inj hans
        rw [← h2]
  · intro hrr
    rw [if_neg hrr] at hans
    rcases hm : reranked.mapM (fun i => st.texts[i]?) with _ | snips
    · rw [hm] at hans; cases hans
    · rw [hm] at hans
      dsimp only at hans
      rcases hc : chat ((snips.intersperse contextSep).flatten) question with e | out
      · rw [hc] at hans; cases hans
      · rw [hc] at hans
        have h2 := Except.ok.inj hans
        rw [← h2]

/-- C7 counterexample: with `max_context_docs = 0` provided, candidates
non-empty and reranking empty, `answer` uses the first `rerank_k = 1`
candidates (`[0]`), while "the first `max_context_docs` candidates" would be
`[]` — Python's `or` treats the provided `0` as unset. -/
theorem answer_mcd_zero_cex :
    answerPipe (fun _ => .ok [[(1:ℚ)]]) (fun _ => .ok []) (fun _ _ => .ok ['o'])
      12 1 ⟨[['x']], [[(1:ℚ)]]⟩ ['q'] (some 0) = .ok ⟨['o'], [['x']], [0]⟩ ∧
    ([((0:Nat), (⟨1, 1⟩ : Score))].map (fun p => p.1)).take 0 = ([] : List Nat) ∧
    ([0] : List Nat) ≠ [] :=
  ⟨answer_eval_zero, rfl, by decide⟩

theorem answer_fallback_witness :
    (⟨['o'], [['x']], [0]⟩ : AnswerResult).indices =
      ([((0:Nat), (⟨1, 1⟩ : Score))].map (fun p => p.1)).take (pyOrNat none 1) :=
  (answer_fallback (fun _ => .ok [[(1:ℚ)]]) (fun _ => .ok []) (fun _ _ => .ok ['o'])
    12 1 ⟨[['x']], [[(1:ℚ)]]⟩ ['q'] none [(0, ⟨1, 1⟩)] [] ⟨['o'], [['x']], [0]⟩
    retrieve_single_eval rfl answer_eval_none).1 rfl
